import Mathlib

/-!
Verification of the SPARK ISMRM-2021 reconstruction pipeline
(`sparkFigure4.ipynb`): shallow embedding of the array operations,
encoding operators, solver and SPARK correction steps, with theorems
settling the specification claims about them.

Numpy arrays are embedded as index functions (`ℕ → ... → α`); complex
values as `ℂ` where the Fourier transform is involved and as rational
pairs `ℚ × ℚ` (re, im) elsewhere, so that concrete evaluations are
decidable.  In-place numpy mutation is embedded with an explicit heap of
array references where a claim is about mutation.
-/

/-! ## ACS replacement (cells 28 and 49 of the notebook)

`kspaceCorrectedReplaced[:, acsregionX[0]:acsregionX[acsx-1], acsregionY[0]:acsregionY[acsy-1]] = kspaceAcs[0, :, ...]`
with `acsregionX = arange(x0, x0+acsx)`, so `acsregionX[acsx-1] = x0+acsx-1`
and the python slice covers indices `x0 ≤ i < x0 + acsx - 1`.  Arrays are
`(channel, readout, phase-encode)` index functions. -/

def kspaceCorrectedReplaced {α : Type} (kspaceCorrected kspaceAcs0 : ℕ → ℕ → ℕ → α)
    (x0 acsx y0 acsy : ℕ) : ℕ → ℕ → ℕ → α :=
  fun c i j =>
    if x0 ≤ i ∧ i < x0 + (acsx - 1) ∧ y0 ≤ j ∧ j < y0 + (acsy - 1) then
      kspaceAcs0 c i j
    else
      kspaceCorrected c i j

/-- Wave-path ACS replacement (cell 49): textually the same slice
assignment, applied to `kspaceCorrectedWave` and `kspaceWaveAcs`. -/
def kspaceCorrectedReplacedWave {α : Type} (kspaceCorrectedWave kspaceWaveAcs0 : ℕ → ℕ → ℕ → α)
    (x0 acsx y0 acsy : ℕ) : ℕ → ℕ → ℕ → α :=
  fun c i j =>
    if x0 ≤ i ∧ i < x0 + (acsx - 1) ∧ y0 ≤ j ∧ j < y0 + (acsy - 1) then
      kspaceWaveAcs0 c i j
    else
      kspaceCorrectedWave c i j

/-! ## Wave-encoding resize / crop (cell 36)

`resize` pads `padreadout` zeros on each side of the readout axis (axis 2
of a 4D `(chan, slice, readout, pe)` array); `crop` selects
`x[:, :, Nro//2 - M//2 : Nro//2 + M//2, :]`.  The readout axis carries an
explicit length (numpy shape); the other axes stay index functions. -/

structure ROArr (α : Type) where
  len : ℕ
  val : ℕ → ℕ → ℕ → ℕ → α

def resize {α : Type} [Zero α] (x : ROArr α) (padreadout : ℕ) : ROArr α :=
  ⟨x.len + 2 * padreadout,
   fun c s i n =>
     if i < padreadout then 0
     else if i < padreadout + x.len then x.val c s (i - padreadout) n
     else 0⟩

def crop {α : Type} (Nro M : ℕ) (x : ROArr α) : ROArr α :=
  ⟨(Nro / 2 + M / 2) - (Nro / 2 - M / 2),
   fun c s i n => x.val c s (i + (Nro / 2 - M / 2)) n⟩

/-- Extensional equality of readout-axis arrays: same length and same
entries at all in-range indices. -/
def ROEq {α : Type} (a b : ROArr α) : Prop :=
  a.len = b.len ∧ ∀ c s i n, i < a.len → a.val c s i n = b.val c s i n

/-! ## Slice shifting (cell 10)

`performshift` rolls each slice sub-array `x[:, ss, :, :]` by
`direction * shift[ss]`; `np.roll` without an `axis` argument flattens the
`(batch, readout, pe)` block, rolls the flat vector and reshapes.  The
embedding makes the flattening explicit; out-of-shape indices give the
`np.zeros` background. -/

/-- Source index of a flat `np.roll` by `d`: `out[l] = in[(l - d) mod T]`. -/
def rollIdx (T : ℕ) (d : ℤ) (l : ℕ) : ℕ :=
  (((l : ℤ) - d) % (T : ℤ)).toNat

def performshift {α : Type} [Zero α] (B S M N : ℕ) (x : ℕ → ℕ → ℕ → ℕ → α)
    (shift : ℕ → ℤ) (direction : ℤ) : ℕ → ℕ → ℕ → ℕ → α :=
  fun b ss m n =>
    if b < B ∧ ss < S ∧ m < M ∧ n < N then
      let src : ℕ := rollIdx (B * M * N) (direction * shift ss) (b * (M * N) + m * N + n)
      x (src / (M * N)) ss ((src / N) % M) (src % N)
    else 0

/-! ## Rational complex pairs

Complex machine numbers are embedded as `ℚ × ℚ` pairs `(re, im)` where
decidable evaluation matters; addition and subtraction are the
componentwise `Prod` instances, multiplication, conjugation and division
are the complex ones. -/

def cmul (a b : ℚ × ℚ) : ℚ × ℚ := (a.1 * b.1 - a.2 * b.2, a.1 * b.2 + a.2 * b.1)

def cconj (a : ℚ × ℚ) : ℚ × ℚ := (a.1, -a.2)

def cdiv (a b : ℚ × ℚ) : ℚ × ℚ :=
  ((a.1 * b.1 + a.2 * b.2) / (b.1 * b.1 + b.2 * b.2),
   (a.2 * b.1 - a.1 * b.2) / (b.1 * b.1 + b.2 * b.2))

/-! ## SPARK correction application (cell 24)

`corrected = correctionr[0,0,:,:]/chanScaleFactorReal + 1j * correctioni[0,0,:,:]/chanScaleFactorImag + kspaceToCorrect`.
The trained networks are black boxes: arbitrary functions from the split
input k-space `(2·coils, M, N)` to a real-valued `(M, N)` map (the torch
batch plumbing `unsqueeze` / `[0][0,0,:,:]` is elided).  The scale factors
are real scalars, so the de-scaling divisions act componentwise. -/

def applySparkCorrection (kspaceToCorrect : ℕ → ℕ → ℚ × ℚ)
    (kspaceGrappaSplit : ℕ → ℕ → ℕ → ℚ)
    (real_model imag_model : (ℕ → ℕ → ℕ → ℚ) → ℕ → ℕ → ℚ)
    (chanScaleFactorReal chanScaleFactorImag : ℚ) : ℕ → ℕ → ℚ × ℚ :=
  fun i j =>
    (real_model kspaceGrappaSplit i j / chanScaleFactorReal + (kspaceToCorrect i j).1,
     imag_model kspaceGrappaSplit i j / chanScaleFactorImag + (kspaceToCorrect i j).2)

/-! ## Conjugate gradient solver

`utils.iterative.conjgrad` itself is not part of this file's sources (only
its call sites are), so it is reconstructed from the specification. -/

/-- Vector dot product `r·r` on complex vectors, `∑ conj(aᵢ)·bᵢ`. -/
def dotc {n : ℕ} (a b : Fin n → ℚ × ℚ) : ℚ × ℚ :=
  ∑ i, cmul (cconj (a i)) (b i)

/-- Scalar times vector. -/
def smulV {n : ℕ} (s : ℚ × ℚ) (v : Fin n → ℚ × ℚ) : Fin n → ℚ × ℚ :=
  fun i => cmul s (v i)

/-- The body of the conjugate-gradient `for` loop, acting on the loop
state `(x, r, p, rsold)` where `rsold` caches `r·r`. -/
def cgLoopStep {n : ℕ} (A : (Fin n → ℚ × ℚ) → Fin n → ℚ × ℚ)
    (st : (Fin n → ℚ × ℚ) × (Fin n → ℚ × ℚ) × (Fin n → ℚ × ℚ) × (ℚ × ℚ)) (i : ℕ) :
    (Fin n → ℚ × ℚ) × (Fin n → ℚ × ℚ) × (Fin n → ℚ × ℚ) × (ℚ × ℚ) :=
  match st with
  | (x, r, p, rsold) =>
    let Ap := A p
    let alpha := cdiv rsold (dotc p Ap)
    let x' := x + smulV alpha p
    let r' := r - smulV alpha Ap
    let rsnew := dotc r' r'
    (x', r', r' + smulV (cdiv rsnew rsold) p, rsnew)

/-- Modelled from the spec: `utils.iterative.conjgrad` (missing from the
sources; only its call sites in cells 16 and 40 are present).  Per spec
§4.4: residual `r0 = b − A(x0)`, direction `p0 = r0`, then for exactly
`ite` steps `α = (r·r)/(p·A(p))`, `x += α p`, `r_new = r − α A(p)`,
`β = (r_new·r_new)/(r·r)`, `p = r_new + β p`, with the `r·r` of the
current residual cached across iterations, returning the final `x`. -/
def conjgrad {n : ℕ} (A : (Fin n → ℚ × ℚ) → Fin n → ℚ × ℚ)
    (b x0 : Fin n → ℚ × ℚ) (ite : ℕ) : Fin n → ℚ × ℚ :=
  let r0 := b - A x0
  ((List.range ite).foldl (cgLoopStep A) (x0, r0, r0, dotc r0 r0)).1

/-- One conjugate-gradient step exactly as the claim states it, on the
`(x, r, p)` triple with no cached quantities. -/
def cgStep {n : ℕ} (A : (Fin n → ℚ × ℚ) → Fin n → ℚ × ℚ)
    (t : (Fin n → ℚ × ℚ) × (Fin n → ℚ × ℚ) × (Fin n → ℚ × ℚ)) :
    (Fin n → ℚ × ℚ) × (Fin n → ℚ × ℚ) × (Fin n → ℚ × ℚ) :=
  match t with
  | (x, r, p) =>
    let Ap := A p
    let alpha := cdiv (dotc r r) (dotc p Ap)
    let x' := x + smulV alpha p
    let r' := r - smulV alpha Ap
    (x', r', r' + smulV (cdiv (dotc r' r') (dotc r r)) p)

/-- The search direction at the start of step `k` of the claim's
recurrence, for phrasing the non-degeneracy precondition `p·A(p) ≠ 0`. -/
def cgDir {n : ℕ} (A : (Fin n → ℚ × ℚ) → Fin n → ℚ × ℚ)
    (b x0 : Fin n → ℚ × ℚ) (k : ℕ) : Fin n → ℚ × ℚ :=
  ((cgStep A)^[k] (x0, b - A x0, b - A x0)).2.2

/-! ## SPARK data reformatting (cell 22)

`reformattingKspaceForSpark` mixes pure computation with in-place numpy
updates (`kspace_grappa_split[e,:,:,:] *= scale_factor_input`,
`acs_difference_real[e,c,:,:] *= scale_factor_real`).  The embedding uses
an explicit heap of 4D array references so that aliasing is visible:

* ref 0 — `inputKspace` (caller's array, `(E, C, H, W)` complex),
* ref 1 — `kspaceOriginal` (caller's array),
* ref 2 — `kspace_grappa`, allocated by `np.copy(inputKspace)`,
* ref 3 — `kspaceAcsDifference`, allocated by the subtraction
  `kspaceAcsCrop - kspaceAcsGrappa` (the crops themselves are read-only
  views of refs 1 and 0, embedded as index-shifted reads);
  `acs_difference_real` / `acs_difference_imag` are `np.real` / `np.imag`
  views of it, so their in-place scalings write its components,
* ref 4 — `kspace_grappa_split`, allocated by `np.concatenate` of the
  `np.real` / `np.imag` views of ref 2 (real-valued, stored in the first
  component).

The torch `expand_dims` / `.to(device)` plumbing at the end allocates
fresh tensors and is elided. -/

abbrev CArr := ℕ → ℕ → ℕ → ℕ → ℚ × ℚ

abbrev Heap := ℕ → CArr

def writeH (h : Heap) (r : ℕ) (v : CArr) : Heap :=
  fun r' => if r' = r then v else h r'

/-- `np.amax(np.abs(f))` over a 2D `h × w` real slice. -/
def maxAbs2 (f : ℕ → ℕ → ℚ) (h w : ℕ) : ℚ :=
  (List.range h).foldl (fun acc i => (List.range w).foldl (fun a j => max a |f i j|) acc) 0

/-- `np.amax(np.abs(f))` over a 3D `d × h × w` real slice. -/
def maxAbs3 (f : ℕ → ℕ → ℕ → ℚ) (d h w : ℕ) : ℚ :=
  (List.range d).foldl
    (fun acc c => (List.range h).foldl
      (fun a i => (List.range w).foldl (fun a2 j => max a2 |f c i j|) a) acc) 0

/-- `kspaceAcsCrop - kspaceAcsGrappa`: the ACS difference read through the
slicing views of `kspaceOriginal` (ref 1) and `inputKspace` (ref 0), with
the crop origin at `(x0, y0) = (acsregionX[0], acsregionY[0])`. -/
def diffOf (h0 : Heap) (x0 y0 : ℕ) : CArr :=
  fun e c i j => h0 1 e c (x0 + i) (y0 + j) - h0 0 e c (x0 + i) (y0 + j)

structure RState where
  heap : Heap
  sfr : ℕ → ℕ → ℚ
  sfi : ℕ → ℕ → ℚ

/-- Body of the inner `for c in range(C)` loop: compute
`scale_factor_real/imag` (1 when normalization is off), record them in the
`chan_scale_factors` tables, and perform the in-place
`acs_difference_real[e,c,:,:] *= scale_factor_real` (and imag) writes,
which land on the components of ref 3. -/
def innerStep (flag : Bool) (ax ay e : ℕ) (st : RState) (c : ℕ) : RState :=
  let sr := if flag then 1 / maxAbs2 (fun i j => (st.heap 3 e c i j).1) ax ay else 1
  let si := if flag then 1 / maxAbs2 (fun i j => (st.heap 3 e c i j).2) ax ay else 1
  { heap := writeH st.heap 3
      (fun e' c' i j =>
        if e' = e ∧ c' = c then (sr * (st.heap 3 e c i j).1, si * (st.heap 3 e c i j).2)
        else st.heap 3 e' c' i j),
    sfr := fun e' c' => if e' = e ∧ c' = c then sr else st.sfr e' c',
    sfi := fun e' c' => if e' = e ∧ c' = c then si else st.sfi e' c' }

/-- The input-scaling prefix of the outer loop body: when normalization is
on, `scale_factor_input = 1/amax(|kspace_grappa_split[e]|)` followed by the
in-place `kspace_grappa_split[e,:,:,:] *= scale_factor_input` on ref 4. -/
def scaleInput (flag : Bool) (Cc H W : ℕ) (st : RState) (e : ℕ) : RState :=
  if flag then
    let s0 := 1 / maxAbs3 (fun c i j => (st.heap 4 e c i j).1) (Cc + Cc) H W
    let h' := writeH st.heap 4 (fun e' c i j =>
      if e' = e then (s0 * (st.heap 4 e c i j).1, (st.heap 4 e c i j).2)
      else st.heap 4 e' c i j)
    { st with heap := h' }
  else st

/-- Body of the outer `for e in range(E)` loop: the input scaling followed
by the inner channel loop. -/
def outerStep (flag : Bool) (Cc H W ax ay : ℕ) (st : RState) (e : ℕ) : RState :=
  (List.range Cc).foldl (innerStep flag ax ay e) (scaleInput flag Cc H W st e)

/-- The allocation phase of `reformattingKspaceForSpark`: the difference
array (ref 3), the `np.copy` of the input (ref 2) and the real/imag
concatenation `kspace_grappa_split` (ref 4). -/
def reformatInit (Cc x0 y0 : ℕ) (h0 : Heap) : Heap :=
  let h1 := writeH h0 3 (diffOf h0 x0 y0)
  let h2 := writeH h1 2 (h1 0)
  let split : CArr := fun e c i j =>
    if c < Cc then ((h2 2 e c i j).1, 0) else ((h2 2 e (c - Cc) i j).2, 0)
  writeH h2 4 split

/-- `reformattingKspaceForSpark` on a heap whose refs 0 and 1 hold the
caller's `inputKspace` and `kspaceOriginal`: allocate refs 2-4, then run
the normalization loops.  Returns the final heap together with the
`chan_scale_factors_real/imag` tables. -/
def reformattingKspaceForSpark (E Cc H W ax ay x0 y0 : ℕ) (flag : Bool) (h0 : Heap) : RState :=
  (List.range E).foldl (outerStep flag Cc H W ax ay)
    { heap := reformatInit Cc x0 y0 h0, sfr := fun _ _ => 0, sfi := fun _ _ => 0 }

/-! ## Centered Fourier transform and the SENSE operators (cells 14 and 16)

`sig.fft2c` / `sig.ifft2c` live in `utils.signalprocessing`, outside this
file's sources, and are reconstructed from the specification.  Images are
`Fin M → Fin N → ℂ`, multi-channel k-space is `Fin C → Fin M → Fin N → ℂ`,
and the sampling mask is real-valued (`{0,1}` in the experiments). -/

/-- Modelled from the spec: the centered DFT kernel
`exp(-2πi·(k - ⌊d/2⌋)(m - ⌊d/2⌋)/d)` (spec §4.1: centered convention,
zero frequency at the geometric center). -/
noncomputable def cker (d k m : ℕ) : ℂ :=
  Complex.exp (-(2 * (Real.pi : ℂ) * Complex.I *
    ((((k : ℤ) - (d : ℤ) / 2) * ((m : ℤ) - (d : ℤ) / 2) : ℤ) : ℂ) / (d : ℂ)))

/-- Modelled from the spec: the inverse centered DFT kernel (conjugate of
`cker`). -/
noncomputable def icker (d k m : ℕ) : ℂ :=
  Complex.exp (2 * (Real.pi : ℂ) * Complex.I *
    ((((k : ℤ) - (d : ℤ) / 2) * ((m : ℤ) - (d : ℤ) / 2) : ℤ) : ℂ) / (d : ℂ))

/-- Modelled from the spec: `sig.fft2c`, the centered 2D Fourier transform
along the last two axes, orthonormally scaled so that forward and inverse
round-trip (spec §4.1). -/
noncomputable def fft2c {M N : ℕ} (x : Fin M → Fin N → ℂ) : Fin M → Fin N → ℂ :=
  fun k l => (((Real.sqrt (M * N))⁻¹ : ℝ) : ℂ) * ∑ m, ∑ n, x m n * cker M k m * cker N l n

/-- Modelled from the spec: `sig.ifft2c`, the inverse centered 2D Fourier
transform. -/
noncomputable def ifft2c {M N : ℕ} (x : Fin M → Fin N → ℂ) : Fin M → Fin N → ℂ :=
  fun k l => (((Real.sqrt (M * N))⁻¹ : ℝ) : ℂ) * ∑ m, ∑ n, x m n * icker M k m * icker N l n

/-- `senseForward(x, maps, mask) = mask * fft2c(maps * x)` per channel. -/
noncomputable def senseForward {C M N : ℕ} (x : Fin M → Fin N → ℂ)
    (maps : Fin C → Fin M → Fin N → ℂ) (mask : Fin C → Fin M → Fin N → ℝ) :
    Fin C → Fin M → Fin N → ℂ :=
  fun c k l => (mask c k l : ℂ) * fft2c (fun m n => maps c m n * x m n) k l

/-- `senseAdjoint(x, maps, mask) = sum(conj(maps) * ifft2c(x), -3)`; note
the `mask` argument is accepted but never used by the source. -/
noncomputable def senseAdjoint {C M N : ℕ} (x : Fin C → Fin M → Fin N → ℂ)
    (maps : Fin C → Fin M → Fin N → ℂ) (mask : Fin C → Fin M → Fin N → ℝ) :
    Fin M → Fin N → ℂ :=
  fun m n => ∑ c, star (maps c m n) * ifft2c (x c) m n

/-- The normal operator of cell 16:
`normal = lambda x: senseAdjoint(senseForward(x, coils, mask), coils, mask)`
(the `reshape` / `ravel` flattening is the identity on index functions). -/
noncomputable def normalOp {C M N : ℕ} (maps : Fin C → Fin M → Fin N → ℂ)
    (mask : Fin C → Fin M → Fin N → ℝ) (x : Fin M → Fin N → ℂ) : Fin M → Fin N → ℂ :=
  senseAdjoint (senseForward x maps mask) maps mask

/-- Complex inner product `⟨x, y⟩ = ∑ conj(x)·y` on `M × N` images. -/
noncomputable def innerMN {M N : ℕ} (x y : Fin M → Fin N → ℂ) : ℂ :=
  ∑ k, ∑ l, star (x k l) * y k l

/-- Complex inner product on multi-channel k-space. -/
noncomputable def innerChan {C M N : ℕ} (x y : Fin C → Fin M → Fin N → ℂ) : ℂ :=
  ∑ c, innerMN (x c) (y c)

/-- Helper: the unmasked coil-weight-then-transform map
`c ↦ fft2c(maps_c ⊙ y)`, the exact adjoint partner of `senseAdjoint`. -/
noncomputable def coilFT {C M N : ℕ} (maps : Fin C → Fin M → Fin N → ℂ)
    (y : Fin M → Fin N → ℂ) : Fin C → Fin M → Fin N → ℂ :=
  fun c => fft2c (fun m n => maps c m n * y m n)

/-! ## Index flattening helpers (for the `np.roll` embedding) -/

lemma flat_lt {B M N b m n : ℕ} (hb : b < B) (hm : m < M) (hn : n < N) :
    b * (M * N) + m * N + n < B * (M * N) := by
  have h1 : m * N + n < M * N := by
    calc m * N + n < m * N + N := by omega
    _ = (m + 1) * N := by ring
    _ ≤ M * N := Nat.mul_le_mul_right N hm
  calc b * (M * N) + m * N + n = b * (M * N) + (m * N + n) := by ring
  _ < b * (M * N) + M * N := by omega
  _ = (b + 1) * (M * N) := by ring
  _ ≤ B * (M * N) := Nat.mul_le_mul_right (M * N) hb

lemma unflatten_flatten {M N : ℕ} (b m n : ℕ) (hm : m < M) (hn : n < N) :
    (b * (M * N) + m * N + n) / (M * N) = b ∧
    ((b * (M * N) + m * N + n) / N) % M = m ∧
    (b * (M * N) + m * N + n) % N = n := by
  have hM : 0 < M := by omega
  have hN : 0 < N := by omega
  have hMN : 0 < M * N := Nat.mul_pos hM hN
  have hrew : b * (M * N) + m * N + n = (m * N + n) + b * (M * N) := by ring
  have hsmall : m * N + n < M * N := by
    calc m * N + n < m * N + N := by omega
    _ = (m + 1) * N := by ring
    _ ≤ M * N := Nat.mul_le_mul_right N hm
  refine ⟨?_, ?_, ?_⟩
  · rw [hrew, Nat.add_mul_div_right _ _ hMN, Nat.div_eq_of_lt hsmall, Nat.zero_add]
  · have hrew2 : b * (M * N) + m * N + n = n + (m + b * M) * N := by ring
    rw [hrew2, Nat.add_mul_div_right _ _ hN, Nat.div_eq_of_lt hn, Nat.zero_add,
      Nat.add_mul_mod_self_right, Nat.mod_eq_of_lt hm]
  · have hrew3 : b * (M * N) + m * N + n = n + (b * M + m) * N := by ring
    rw [hrew3, Nat.add_mul_mod_self_right, Nat.mod_eq_of_lt hn]

lemma flatten_unflatten {M N : ℕ} (s : ℕ) :
    s / (M * N) * (M * N) + (s / N) % M * N + s % N = s := by
  have h1 : (s / N) % M = s % (N * M) / N := (Nat.mod_mul_right_div_self s N M).symm
  have h2 : s % N = s % (N * M) % N := (Nat.mod_mod_of_dvd s ⟨M, rfl⟩).symm
  rw [h1, h2]
  have h3 : s % (N * M) / N * N + s % (N * M) % N = s % (N * M) := by
    rw [Nat.mul_comm (s % (N * M) / N) N]
    exact Nat.div_add_mod _ _
  rw [Nat.add_assoc, h3]
  have h4 : N * M = M * N := Nat.mul_comm N M
  rw [h4, Nat.mul_comm (s / (M * N)) (M * N)]
  exact Nat.div_add_mod s (M * N)

/-! ## C1: ACS replacement -/

/-- C1 (code bug): with `acsregionX = acsregionY = arange(0, 2)` (so
`acsx = acsy = 2`), an all-zero corrected k-space and all-one measured ACS,
the replacement writes the ACS value at `(0, 0)` but leaves the corrected
value at the window corner `(acsregionX[acsx-1], acsregionY[acsy-1]) = (1, 1)`,
because the python slice `acsregionX[0]:acsregionX[acsx-1]` excludes its
endpoint; the claim requires the whole inclusive window (indices 0 and 1)
to hold ACS values.  The wave-path replacement is the same code and shows
the same gap. -/
theorem acsReplacement_missesLastIndex :
    kspaceCorrectedReplaced (fun _ _ _ => (0 : ℤ)) (fun _ _ _ => 1) 0 2 0 2 0 0 0 = 1 ∧
    kspaceCorrectedReplaced (fun _ _ _ => (0 : ℤ)) (fun _ _ _ => 1) 0 2 0 2 0 1 1 = 0 ∧
    kspaceCorrectedReplacedWave (fun _ _ _ => (0 : ℤ)) (fun _ _ _ => 1) 0 2 0 2 0 1 1 = 0 := by
  refine ⟨?_, ?_, ?_⟩ <;> decide

/-! ## C5: resize / crop round-trip -/

/-- C5 counterexample: for native readout length `M = 1` and oversampled
length `Nro = 3` (so `padreadout = (3-1)//2 = 1`), the crop window
`[Nro//2 - M//2, Nro//2 + M//2) = [1, 1)` is empty, so
`crop(resize(x))` has readout length `0 ≠ 1` and cannot equal `x`. -/
theorem crop_resize_cex :
    ¬ ROEq (crop 3 1 (resize (⟨1, fun _ _ _ _ => (1 : ℤ)⟩ : ROArr ℤ) ((3 - 1) / 2)))
      ⟨1, fun _ _ _ _ => 1⟩ :=
  fun h => absurd h.1 (by decide)

/-- C5 (amended): for every array whose readout axis has an even native
length `M` and every oversampled length `Nro ≥ M`, cropping after the
symmetric `(Nro - M)//2` zero-padding restores the array exactly. -/
theorem crop_resize_id_even {α : Type} [Zero α] (x : ROArr α) (M Nro : ℕ)
    (hlen : x.len = M) (heven : M % 2 = 0) (hle : M ≤ Nro) :
    ROEq (crop Nro M (resize x ((Nro - M) / 2))) x := by
  have hlo : Nro / 2 - M / 2 = (Nro - M) / 2 := by omega
  have hlen' : (crop Nro M (resize x ((Nro - M) / 2))).len = x.len := by
    simp only [crop, resize]
    omega
  refine ⟨hlen', ?_⟩
  intro c s i n hi
  rw [hlen', hlen] at hi
  show (resize x ((Nro - M) / 2)).val c s (i + (Nro / 2 - M / 2)) n = x.val c s i n
  simp only [resize]
  split_ifs with h1 h2
  · omega
  · have hidx : i + (Nro / 2 - M / 2) - (Nro - M) / 2 = i := by omega
    rw [hidx]
  · omega

/-- C5 witness: concrete instance with `M = 2`, `Nro = 3`. -/
theorem crop_resize_id_even_witness :
    ((⟨2, fun _ _ _ _ => (0 : ℤ)⟩ : ROArr ℤ).len = 2 ∧ 2 % 2 = 0 ∧ 2 ≤ 3) ∧
    ROEq (crop 3 2 (resize (⟨2, fun _ _ _ _ => (0 : ℤ)⟩ : ROArr ℤ) ((3 - 2) / 2)))
      ⟨2, fun _ _ _ _ => 0⟩ :=
  ⟨⟨rfl, by decide, by decide⟩,
   crop_resize_id_even _ 2 3 rfl (by decide) (by decide)⟩

/-! ## C6: shift / unshift identity -/

lemma performshift_apply {α : Type} [Zero α] (B S M N : ℕ) (x : ℕ → ℕ → ℕ → ℕ → α)
    (shift : ℕ → ℤ) (d : ℤ) (b ss m n : ℕ) (h : b < B ∧ ss < S ∧ m < M ∧ n < N) :
    performshift B S M N x shift d b ss m n =
      x (rollIdx (B * M * N) (d * shift ss) (b * (M * N) + m * N + n) / (M * N)) ss
        ((rollIdx (B * M * N) (d * shift ss) (b * (M * N) + m * N + n) / N) % M)
        (rollIdx (B * M * N) (d * shift ss) (b * (M * N) + m * N + n) % N) := by
  unfold performshift
  rw [if_pos h]

lemma rollIdx_lt (T : ℕ) (hT : 0 < T) (d : ℤ) (l : ℕ) : rollIdx T d l < T := by
  unfold rollIdx
  have hTz : ((T : ℕ) : ℤ) ≠ 0 := by exact_mod_cast hT.ne'
  have h0 : (0 : ℤ) ≤ ((l : ℤ) - d) % (T : ℤ) := Int.emod_nonneg _ hTz
  have h1 : ((l : ℤ) - d) % (T : ℤ) < (T : ℤ) := Int.emod_lt_of_pos _ (by exact_mod_cast hT)
  omega

lemma rollIdx_inv (T : ℕ) (hT : 0 < T) (k : ℤ) (l : ℕ) (hl : l < T) :
    rollIdx T (1 * k) (rollIdx T ((-1) * k) l) = l := by
  unfold rollIdx
  have hTz : ((T : ℕ) : ℤ) ≠ 0 := by exact_mod_cast hT.ne'
  have h0 : (0 : ℤ) ≤ ((l : ℤ) - (-1) * k) % (T : ℤ) := Int.emod_nonneg _ hTz
  rw [Int.toNat_of_nonneg h0, one_mul]
  have hA : (l : ℤ) - (-1) * k = (l : ℤ) + k := by ring
  rw [hA, Int.sub_emod, Int.emod_emod_of_dvd _ dvd_rfl, ← Int.sub_emod,
    add_sub_cancel_right]
  have hfin : (l : ℤ) % (T : ℤ) = (l : ℤ) :=
    Int.emod_eq_of_lt (by exact_mod_cast Nat.zero_le l) (by exact_mod_cast hl)
  rw [hfin, Int.toNat_natCast]

/-- C6: shifting each slice by `+shift[ss]` and then by `-shift[ss]` is the
identity on every in-shape index, for every integer shift vector: the two
flattened `np.roll`s compose to a roll by zero. -/
theorem performshift_roundtrip {α : Type} [Zero α] (B S M N : ℕ)
    (x : ℕ → ℕ → ℕ → ℕ → α) (shift : ℕ → ℤ) (b ss m n : ℕ)
    (hb : b < B) (hs : ss < S) (hm : m < M) (hn : n < N) :
    performshift B S M N (performshift B S M N x shift 1) shift (-1) b ss m n
      = x b ss m n := by
  have hM : 0 < M := by omega
  have hN : 0 < N := by omega
  have hMN : 0 < M * N := Nat.mul_pos hM hN
  have hB : 0 < B := by omega
  have hT : 0 < B * M * N := Nat.mul_pos (Nat.mul_pos hB hM) hN
  have hTassoc : B * M * N = B * (M * N) := by ring
  have hlT : b * (M * N) + m * N + n < B * M * N := by
    rw [hTassoc]; exact flat_lt hb hm hn
  rw [performshift_apply B S M N _ shift (-1) b ss m n ⟨hb, hs, hm, hn⟩]
  set s1 : ℕ := rollIdx (B * M * N) ((-1) * shift ss) (b * (M * N) + m * N + n) with hs1
  have hs1T : s1 < B * M * N := rollIdx_lt _ hT _ _
  have hb1 : s1 / (M * N) < B :=
    Nat.div_lt_of_lt_mul (by rw [Nat.mul_comm, ← hTassoc]; exact hs1T)
  have hm1 : (s1 / N) % M < M := Nat.mod_lt _ hM
  have hn1 : s1 % N < N := Nat.mod_lt _ hN
  rw [performshift_apply B S M N x shift 1 _ ss _ _ ⟨hb1, hs, hm1, hn1⟩]
  rw [flatten_unflatten s1, hs1, rollIdx_inv _ hT _ _ hlT]
  obtain ⟨h1, h2, h3⟩ := unflatten_flatten b m n hm hn
  rw [h1, h2, h3]

/-- C6 witness: a concrete 2×2×2×2 array with shift vector `[5, -3]`. -/
theorem performshift_roundtrip_witness :
    ((0 : ℕ) < 2 ∧ (1 : ℕ) < 2) ∧
    performshift 2 2 2 2
        (performshift 2 2 2 2 (fun b ss m n => ((b, ss, m, n) : ℕ × ℕ × ℕ × ℕ))
          (fun ss => if ss = 0 then 5 else -3) 1)
        (fun ss => if ss = 0 then 5 else -3) (-1) 0 1 0 1
      = (0, 1, 0, 1) :=
  ⟨⟨by decide, by decide⟩,
   performshift_roundtrip 2 2 2 2 _ _ 0 1 0 1 (by decide) (by decide) (by decide) (by decide)⟩

/-! ## C7: SPARK correction application -/

/-- C7: `applySparkCorrection` returns exactly
`real_model(input)/scaleR + i·imag_model(input)/scaleI + kspaceToCorrect`,
with both models applied to the same split input; and when each model's
output equals the corresponding scaled target, de-scaling by division
recovers the unscaled target exactly for nonzero scale factors. -/
theorem applySparkCorrection_descale (kspaceToCorrect : ℕ → ℕ → ℚ × ℚ)
    (g : ℕ → ℕ → ℕ → ℚ) (real_model imag_model : (ℕ → ℕ → ℕ → ℚ) → ℕ → ℕ → ℚ)
    (sR sI : ℚ) (tR tI : ℕ → ℕ → ℚ)
    (hR : sR ≠ 0) (hI : sI ≠ 0)
    (hrm : real_model g = fun i j => sR * tR i j)
    (him : imag_model g = fun i j => sI * tI i j) :
    (applySparkCorrection kspaceToCorrect g real_model imag_model sR sI
        = fun i j => (real_model g i j / sR + (kspaceToCorrect i j).1,
                      imag_model g i j / sI + (kspaceToCorrect i j).2)) ∧
    (applySparkCorrection kspaceToCorrect g real_model imag_model sR sI
        = fun i j => (tR i j + (kspaceToCorrect i j).1,
                      tI i j + (kspaceToCorrect i j).2)) := by
  constructor
  · rfl
  · funext i j
    simp only [applySparkCorrection, hrm, him]
    rw [mul_comm sR (tR i j), mul_comm sI (tI i j),
      mul_div_assoc, div_self hR, mul_one, mul_div_assoc, div_self hI, mul_one]

/-- C7 witness: concrete models outputting `2·5` and `3·7` with scale
factors 2 and 3 over a constant k-space. -/
theorem applySparkCorrection_descale_witness :
    ((2 : ℚ) ≠ 0 ∧ (3 : ℚ) ≠ 0 ∧
      (fun (_ : ℕ → ℕ → ℕ → ℚ) (_ : ℕ) (_ : ℕ) => (10 : ℚ)) (fun _ _ _ => 0)
        = (fun (_ : ℕ) (_ : ℕ) => (2 : ℚ) * 5)) ∧
    applySparkCorrection (fun _ _ => ((1 : ℚ), (2 : ℚ))) (fun _ _ _ => 0)
        (fun _ _ _ => 10) (fun _ _ _ => 21) 2 3
      = fun _ _ => ((5 : ℚ) + 1, (7 : ℚ) + 2) :=
  ⟨⟨by norm_num, by norm_num, by funext i j; norm_num⟩,
   (applySparkCorrection_descale (fun _ _ => (1, 2)) (fun _ _ _ => 0)
      (fun _ _ _ => 10) (fun _ _ _ => 21) 2 3 (fun _ _ => 5) (fun _ _ => 7)
      (by norm_num) (by norm_num)
      (by funext i j; norm_num) (by funext i j; norm_num)).2⟩

/-! ## C4: conjugate gradient -/

lemma cgLoopStep_phi {n : ℕ} (A : (Fin n → ℚ × ℚ) → Fin n → ℚ × ℚ)
    (t : (Fin n → ℚ × ℚ) × (Fin n → ℚ × ℚ) × (Fin n → ℚ × ℚ)) (i : ℕ) :
    cgLoopStep A (t.1, t.2.1, t.2.2, dotc t.2.1 t.2.1) i =
      ((cgStep A t).1, (cgStep A t).2.1, (cgStep A t).2.2,
        dotc (cgStep A t).2.1 (cgStep A t).2.1) := by
  obtain ⟨x, r, p⟩ := t
  rfl

lemma conjgrad_loop {n : ℕ} (A : (Fin n → ℚ × ℚ) → Fin n → ℚ × ℚ)
    (x r p : Fin n → ℚ × ℚ) (k : ℕ) :
    (List.range k).foldl (cgLoopStep A) (x, r, p, dotc r r) =
      (((cgStep A)^[k] (x, r, p)).1, ((cgStep A)^[k] (x, r, p)).2.1,
        ((cgStep A)^[k] (x, r, p)).2.2,
        dotc ((cgStep A)^[k] (x, r, p)).2.1 ((cgStep A)^[k] (x, r, p)).2.1) := by
  induction k with
  | zero => rfl
  | succ k ih =>
    rw [List.range_succ, List.foldl_append, ih, List.foldl_cons, List.foldl_nil,
      cgLoopStep_phi, Function.iterate_succ_apply']

/-- C4: `conjgrad` performs exactly `iterations` steps of the claim's
conjugate-gradient recurrence (`α = (r·r)/(p·A(p))`, `x += α p`,
`r_new = r − α A(p)`, `β = (r_new·r_new)/(r·r)`, `p = r_new + β p`) with
no early exit — its result is the first component of the `iterations`-fold
iterate of `cgStep` from `(x0, b - A x0, b - A x0)` — and with zero
iterations it returns `x0` unchanged; stated under the claim's
non-degeneracy precondition `p·A(p) ≠ 0` at every step. -/
theorem conjgrad_spec {n : ℕ} (A : (Fin n → ℚ × ℚ) → Fin n → ℚ × ℚ)
    (b x0 : Fin n → ℚ × ℚ) (ite : ℕ)
    (hnd : ∀ k < ite, dotc (cgDir A b x0 k) (A (cgDir A b x0 k)) ≠ 0) :
    conjgrad A b x0 ite = ((cgStep A)^[ite] (x0, b - A x0, b - A x0)).1 ∧
    conjgrad A b x0 0 = x0 := by
  constructor
  · show ((List.range ite).foldl (cgLoopStep A)
      (x0, b - A x0, b - A x0, dotc (b - A x0) (b - A x0))).1 = _
    rw [conjgrad_loop]
  · rfl

/-- C4 witness: the identity operator on 1-dimensional vectors with
`b = (1, 0)`, `x0 = 0`, one iteration; the single step's denominator is
`p·A(p) = 1 ≠ 0`. -/
theorem conjgrad_spec_witness :
    (∀ k < 1, dotc (cgDir (fun v : Fin 1 → ℚ × ℚ => v) (fun _ => (1, 0)) (fun _ => (0, 0)) k)
        ((fun v => v) (cgDir (fun v : Fin 1 → ℚ × ℚ => v) (fun _ => (1, 0)) (fun _ => (0, 0)) k))
        ≠ 0) ∧
    (conjgrad (fun v : Fin 1 → ℚ × ℚ => v) (fun _ => (1, 0)) (fun _ => (0, 0)) 1 =
        ((cgStep (fun v : Fin 1 → ℚ × ℚ => v))^[1]
          ((fun _ => (0, 0)), (fun _ => (1, 0)) - (fun _ => (0, 0)),
            (fun _ => (1, 0)) - (fun _ => (0, 0)))).1 ∧
      conjgrad (fun v : Fin 1 → ℚ × ℚ => v) (fun _ => (1, 0)) (fun _ => (0, 0)) 0 =
        fun _ => (0, 0)) := by
  have hnd : ∀ k < 1,
      dotc (cgDir (fun v : Fin 1 → ℚ × ℚ => v) (fun _ => (1, 0)) (fun _ => (0, 0)) k)
        ((fun v => v) (cgDir (fun v : Fin 1 → ℚ × ℚ => v) (fun _ => (1, 0)) (fun _ => (0, 0)) k))
        ≠ 0 := by
    intro k hk
    have hk0 : k = 0 := by omega
    subst hk0
    intro hcon
    have h1 : (dotc (cgDir (fun v : Fin 1 → ℚ × ℚ => v) (fun _ => (1, 0))
        (fun _ => (0, 0)) 0)
        (cgDir (fun v : Fin 1 → ℚ × ℚ => v) (fun _ => (1, 0)) (fun _ => (0, 0)) 0)).1 = 1 := by
      simp [cgDir, dotc, cmul, cconj]
    rw [hcon] at h1
    exact absurd h1 (by norm_num)
  exact ⟨hnd, conjgrad_spec _ _ _ 1 hnd⟩

/-! ## C2 / C10: `reformattingKspaceForSpark` -/

lemma foldl_preserve {σ β : Type} (P : σ → Prop) (f : σ → β → σ) :
    ∀ (l : List β) (s : σ), P s → (∀ s' b, P s' → P (f s' b)) → P (l.foldl f s)
  | [], _, h, _ => h
  | a :: t, s, h, hstep => foldl_preserve P f t (f s a) (hstep s a h) hstep

lemma reformatInit_ref0 (Cc x0 y0 : ℕ) (h0 : Heap) : reformatInit Cc x0 y0 h0 0 = h0 0 := by
  simp [reformatInit, writeH]

lemma reformatInit_ref1 (Cc x0 y0 : ℕ) (h0 : Heap) : reformatInit Cc x0 y0 h0 1 = h0 1 := by
  simp [reformatInit, writeH]

lemma reformatInit_ref3 (Cc x0 y0 : ℕ) (h0 : Heap) :
    reformatInit Cc x0 y0 h0 3 = diffOf h0 x0 y0 := by
  simp [reformatInit, writeH]

lemma innerStep_heap_ne3 (flag : Bool) (ax ay e : ℕ) (st : RState) (c r : ℕ) (h : r ≠ 3) :
    (innerStep flag ax ay e st c).heap r = st.heap r := by
  simp [innerStep, writeH, h]

lemma innerStep_heap3_other (flag : Bool) (ax ay e : ℕ) (st : RState) (c e' c' : ℕ)
    (h : ¬(e' = e ∧ c' = c)) :
    (innerStep flag ax ay e st c).heap 3 e' c' = st.heap 3 e' c' := by
  funext i j
  simp [innerStep, writeH, h]

lemma innerStep_sfr_other (flag : Bool) (ax ay e : ℕ) (st : RState) (c e' c' : ℕ)
    (h : ¬(e' = e ∧ c' = c)) :
    (innerStep flag ax ay e st c).sfr e' c' = st.sfr e' c' ∧
    (innerStep flag ax ay e st c).sfi e' c' = st.sfi e' c' := by
  constructor <;> simp [innerStep, h]

lemma innerStep_sfr_set (flag : Bool) (ax ay e : ℕ) (st : RState) (c : ℕ) :
    (innerStep flag ax ay e st c).sfr e c =
      (if flag then 1 / maxAbs2 (fun i j => (st.heap 3 e c i j).1) ax ay else 1) ∧
    (innerStep flag ax ay e st c).sfi e c =
      (if flag then 1 / maxAbs2 (fun i j => (st.heap 3 e c i j).2) ax ay else 1) := by
  constructor <;> simp [innerStep]

lemma scaleInput_sfr (flag : Bool) (Cc H W : ℕ) (st : RState) (e : ℕ) :
    (scaleInput flag Cc H W st e).sfr = st.sfr ∧
    (scaleInput flag Cc H W st e).sfi = st.sfi := by
  cases flag <;> simp [scaleInput]

lemma scaleInput_heap3 (flag : Bool) (Cc H W : ℕ) (st : RState) (e : ℕ) :
    (scaleInput flag Cc H W st e).heap 3 = st.heap 3 := by
  cases flag <;> simp [scaleInput, writeH]

lemma scaleInput_heap01 (flag : Bool) (Cc H W : ℕ) (st : RState) (e : ℕ) :
    (scaleInput flag Cc H W st e).heap 0 = st.heap 0 ∧
    (scaleInput flag Cc H W st e).heap 1 = st.heap 1 := by
  cases flag <;> constructor <;> simp [scaleInput, writeH]

lemma inner_fold_frame (flag : Bool) (ax ay e : ℕ) :
    ∀ (l : List ℕ) (st : RState) (e' c' : ℕ), (e' ≠ e ∨ c' ∉ l) →
      ((l.foldl (innerStep flag ax ay e) st).heap 3 e' c' = st.heap 3 e' c' ∧
       (l.foldl (innerStep flag ax ay e) st).sfr e' c' = st.sfr e' c' ∧
       (l.foldl (innerStep flag ax ay e) st).sfi e' c' = st.sfi e' c') := by
  intro l
  induction l with
  | nil => intro st e' c' _; exact ⟨rfl, rfl, rfl⟩
  | cons a t ih =>
    intro st e' c' h
    have hne : ¬(e' = e ∧ c' = a) := by
      rcases h with h | h
      · exact fun hc => h hc.1
      · exact fun hc => h (hc.2 ▸ List.mem_cons_self a t)
    have ht : e' ≠ e ∨ c' ∉ t := by
      rcases h with h | h
      · exact Or.inl h
      · exact Or.inr fun hc => h (List.mem_cons_of_mem a hc)
    obtain ⟨ih1, ih2, ih3⟩ := ih (innerStep flag ax ay e st a) e' c' ht
    obtain ⟨hs1, hs2⟩ := innerStep_sfr_other flag ax ay e st a e' c' hne
    exact ⟨ih1.trans (innerStep_heap3_other flag ax ay e st a e' c' hne),
           ih2.trans hs1, ih3.trans hs2⟩

lemma inner_fold_spec (flag : Bool) (ax ay e : ℕ) :
    ∀ (l : List ℕ) (st : RState) (c0 : ℕ), l.Nodup → c0 ∈ l →
      ((l.foldl (innerStep flag ax ay e) st).sfr e c0 =
        (if flag then 1 / maxAbs2 (fun i j => (st.heap 3 e c0 i j).1) ax ay else 1) ∧
       (l.foldl (innerStep flag ax ay e) st).sfi e c0 =
        (if flag then 1 / maxAbs2 (fun i j => (st.heap 3 e c0 i j).2) ax ay else 1)) := by
  intro l
  induction l with
  | nil => intro st c0 _ hmem; exact absurd hmem (List.not_mem_nil c0)
  | cons a t ih =>
    intro st c0 hnd hmem
    have hnda : a ∉ t := (List.nodup_cons.mp hnd).1
    have hndt : t.Nodup := (List.nodup_cons.mp hnd).2
    by_cases hc0 : c0 = a
    · subst hc0
      obtain ⟨hfr1, hfr2, hfr3⟩ :=
        inner_fold_frame flag ax ay e t (innerStep flag ax ay e st c0) e c0 (Or.inr hnda)
      obtain ⟨hset1, hset2⟩ := innerStep_sfr_set flag ax ay e st c0
      exact ⟨hfr2.trans hset1, hfr3.trans hset2⟩
    · have hmemt : c0 ∈ t := by
        rcases List.mem_cons.mp hmem with h | h
        · exact absurd h hc0
        · exact h
      have hne : ¬(e = e ∧ c0 = a) := fun hcon => hc0 hcon.2
      have hheap : (innerStep flag ax ay e st a).heap 3 e c0 = st.heap 3 e c0 :=
        innerStep_heap3_other flag ax ay e st a e c0 hne
      obtain ⟨ih1, ih2⟩ := ih (innerStep flag ax ay e st a) c0 hndt hmemt
      rw [hheap] at ih1 ih2
      exact ⟨ih1, ih2⟩

lemma outerStep_frame (flag : Bool) (Cc H W ax ay : ℕ) (st : RState) (e e' c' : ℕ)
    (h : e' ≠ e) :
    ((outerStep flag Cc H W ax ay st e).heap 3 e' c' = st.heap 3 e' c' ∧
     (outerStep flag Cc H W ax ay st e).sfr e' c' = st.sfr e' c' ∧
     (outerStep flag Cc H W ax ay st e).sfi e' c' = st.sfi e' c') := by
  unfold outerStep
  obtain ⟨h1, h2, h3⟩ := inner_fold_frame flag ax ay e (List.range Cc)
    (scaleInput flag Cc H W st e) e' c' (Or.inl h)
  obtain ⟨hs1, hs2⟩ := scaleInput_sfr flag Cc H W st e
  refine ⟨?_, ?_, ?_⟩
  · rw [h1, scaleInput_heap3]
  · rw [h2, hs1]
  · rw [h3, hs2]

lemma outer_fold_frame (flag : Bool) (Cc H W ax ay : ℕ) :
    ∀ (l : List ℕ) (st : RState) (e' c' : ℕ), e' ∉ l →
      ((l.foldl (outerStep flag Cc H W ax ay) st).heap 3 e' c' = st.heap 3 e' c' ∧
       (l.foldl (outerStep flag Cc H W ax ay) st).sfr e' c' = st.sfr e' c' ∧
       (l.foldl (outerStep flag Cc H W ax ay) st).sfi e' c' = st.sfi e' c') := by
  intro l
  induction l with
  | nil => intro st e' c' _; exact ⟨rfl, rfl, rfl⟩
  | cons a t ih =>
    intro st e' c' h
    have hne : e' ≠ a := fun hc => h (hc ▸ List.mem_cons_self a t)
    have hnt : e' ∉ t := fun hc => h (List.mem_cons_of_mem a hc)
    obtain ⟨ih1, ih2, ih3⟩ := ih (outerStep flag Cc H W ax ay st a) e' c' hnt
    obtain ⟨hs1, hs2, hs3⟩ := outerStep_frame flag Cc H W ax ay st a e' c' hne
    exact ⟨ih1.trans hs1, ih2.trans hs2, ih3.trans hs3⟩

lemma outer_fold_spec (flag : Bool) (Cc H W ax ay : ℕ) :
    ∀ (l : List ℕ) (st : RState) (e0 c0 : ℕ), l.Nodup → e0 ∈ l → c0 < Cc →
      ((l.foldl (outerStep flag Cc H W ax ay) st).sfr e0 c0 =
        (if flag then 1 / maxAbs2 (fun i j => (st.heap 3 e0 c0 i j).1) ax ay else 1) ∧
       (l.foldl (outerStep flag Cc H W ax ay) st).sfi e0 c0 =
        (if flag then 1 / maxAbs2 (fun i j => (st.heap 3 e0 c0 i j).2) ax ay else 1)) := by
  intro l
  induction l with
  | nil => intro st e0 c0 _ hmem _; exact absurd hmem (List.not_mem_nil e0)
  | cons a t ih =>
    intro st e0 c0 hnd hmem hc0
    have hnda : a ∉ t := (List.nodup_cons.mp hnd).1
    have hndt : t.Nodup := (List.nodup_cons.mp hnd).2
    by_cases he0 : e0 = a
    · subst he0
      obtain ⟨hfr1, hfr2, hfr3⟩ := outer_fold_frame flag Cc H W ax ay t
        (outerStep flag Cc H W ax ay st e0) e0 c0 hnda
      have hstep : (outerStep flag Cc H W ax ay st e0).sfr e0 c0 =
          (if flag then 1 / maxAbs2 (fun i j => (st.heap 3 e0 c0 i j).1) ax ay else 1) ∧
          (outerStep flag Cc H W ax ay st e0).sfi e0 c0 =
          (if flag then 1 / maxAbs2 (fun i j => (st.heap 3 e0 c0 i j).2) ax ay else 1) := by
        unfold outerStep
        have hspec := inner_fold_spec flag ax ay e0 (List.range Cc)
          (scaleInput flag Cc H W st e0) c0 (List.nodup_range Cc) (List.mem_range.mpr hc0)
        rw [scaleInput_heap3] at hspec
        exact hspec
      exact ⟨hfr2.trans hstep.1, hfr3.trans hstep.2⟩
    · have hmemt : e0 ∈ t := by
        rcases List.mem_cons.mp hmem with h | h
        · exact absurd h he0
        · exact h
      have hheap : (outerStep flag Cc H W ax ay st a).heap 3 e0 c0 = st.heap 3 e0 c0 :=
        (outerStep_frame flag Cc H W ax ay st a e0 c0 he0).1
      obtain ⟨ih1, ih2⟩ := ih (outerStep flag Cc H W ax ay st a) e0 c0 hndt hmemt hc0
      rw [hheap] at ih1 ih2
      exact ⟨ih1, ih2⟩

/-- C10: `reformattingKspaceForSpark` never writes the caller's arrays:
after the call, `inputKspace` (heap ref 0) and `kspaceOriginal` (heap
ref 1) hold exactly the values they held before, for every input and both
settings of the normalization flag — every in-place write of the function
targets the freshly allocated difference (ref 3) or split copy (ref 4). -/
theorem reformat_no_mutation (E Cc H W ax ay x0 y0 : ℕ) (flag : Bool) (h0 : Heap) :
    (reformattingKspaceForSpark E Cc H W ax ay x0 y0 flag h0).heap 0 = h0 0 ∧
    (reformattingKspaceForSpark E Cc H W ax ay x0 y0 flag h0).heap 1 = h0 1 := by
  unfold reformattingKspaceForSpark
  apply foldl_preserve (fun st : RState => st.heap 0 = h0 0 ∧ st.heap 1 = h0 1)
  · exact ⟨reformatInit_ref0 Cc x0 y0 h0, reformatInit_ref1 Cc x0 y0 h0⟩
  · intro s e hs
    unfold outerStep
    apply foldl_preserve (fun st : RState => st.heap 0 = h0 0 ∧ st.heap 1 = h0 1)
    · obtain ⟨hh0, hh1⟩ := scaleInput_heap01 flag Cc H W s e
      exact ⟨hh0.trans hs.1, hh1.trans hs.2⟩
    · intro s' c hs'
      exact ⟨(innerStep_heap_ne3 flag ax ay e s' c 0 (by omega)).trans hs'.1,
             (innerStep_heap_ne3 flag ax ay e s' c 1 (by omega)).trans hs'.2⟩

/-- C2 (amended): with normalization enabled, the returned per-channel
scale factors are computed unconditionally as `1 / max |difference part|`
over the ACS residual slice — there is no zero-divisor detection and no
error path; an all-zero slice therefore makes the function divide by zero
(producing a non-finite float in numpy) and return normally. -/
theorem reformat_scale_reciprocal (E Cc H W ax ay x0 y0 : ℕ) (h0 : Heap) (e c : ℕ)
    (he : e < E) (hc : c < Cc) :
    (reformattingKspaceForSpark E Cc H W ax ay x0 y0 true h0).sfr e c =
      1 / maxAbs2 (fun i j => (diffOf h0 x0 y0 e c i j).1) ax ay ∧
    (reformattingKspaceForSpark E Cc H W ax ay x0 y0 true h0).sfi e c =
      1 / maxAbs2 (fun i j => (diffOf h0 x0 y0 e c i j).2) ax ay := by
  unfold reformattingKspaceForSpark
  have hspec := outer_fold_spec true Cc H W ax ay (List.range E)
    { heap := reformatInit Cc x0 y0 h0, sfr := fun _ _ => 0, sfi := fun _ _ => 0 }
    e c (List.nodup_range E) (List.mem_range.mpr he) hc
  simpa [reformatInit_ref3] using hspec

/-- C2 witness: a 1-contrast, 1-channel, 1×1 instance with equal input and
original k-space (hence an identically-zero ACS residual). -/
theorem reformat_scale_reciprocal_witness :
    ((0 : ℕ) < 1) ∧
    ((reformattingKspaceForSpark 1 1 1 1 1 1 0 0 true (fun _ _ _ _ _ => ((1 : ℚ), 1))).sfr 0 0 =
      1 / maxAbs2 (fun i j => (diffOf (fun _ _ _ _ _ => ((1 : ℚ), 1)) 0 0 0 0 i j).1) 1 1 ∧
    (reformattingKspaceForSpark 1 1 1 1 1 1 0 0 true (fun _ _ _ _ _ => ((1 : ℚ), 1))).sfi 0 0 =
      1 / maxAbs2 (fun i j => (diffOf (fun _ _ _ _ _ => ((1 : ℚ), 1)) 0 0 0 0 i j).2) 1 1) :=
  ⟨by decide,
   reformat_scale_reciprocal 1 1 1 1 1 1 0 0 (fun _ _ _ _ _ => ((1 : ℚ), 1)) 0 0
     (by decide) (by decide)⟩

lemma foldl_max_abs_zero (g : ℕ → ℚ) (hg : ∀ j, g j = 0) :
    ∀ l : List ℕ, l.foldl (fun a j => max a |g j|) 0 = 0 := by
  intro l
  induction l with
  | nil => rfl
  | cons a t ih =>
    rw [List.foldl_cons, hg a, abs_zero, max_self]
    exact ih

lemma maxAbs2_zero (f : ℕ → ℕ → ℚ) (h w : ℕ) (hf : ∀ i j, f i j = 0) :
    maxAbs2 f h w = 0 := by
  unfold maxAbs2
  induction (List.range h) with
  | nil => rfl
  | cons a t ih =>
    rw [List.foldl_cons, foldl_max_abs_zero (f a) (hf a) (List.range w)]
    exact ih

/-- C2 counterexample to the claim as stated: for an all-zero ACS residual
slice (input equal to original), `reformattingKspaceForSpark` with
normalization on does not signal any error — it computes the divisor
`max |difference|` as `0` and still returns the scale factor `1/0`. -/
theorem reformat_zero_divisor_cex :
    maxAbs2 (fun i j => (diffOf (fun _ _ _ _ _ => ((1 : ℚ), 1)) 0 0 0 0 i j).1) 1 1 = 0 ∧
    (reformattingKspaceForSpark 1 1 1 1 1 1 0 0 true (fun _ _ _ _ _ => ((1 : ℚ), 1))).sfr 0 0 =
      1 / (0 : ℚ) := by
  have hzero : ∀ i j : ℕ, (diffOf (fun _ _ _ _ _ => ((1 : ℚ), 1)) 0 0 0 0 i j).1 = 0 := by
    intro i j
    simp [diffOf]
  have hmax : maxAbs2 (fun i j => (diffOf (fun _ _ _ _ _ => ((1 : ℚ), 1)) 0 0 0 0 i j).1) 1 1
      = 0 := maxAbs2_zero _ 1 1 hzero
  refine ⟨hmax, ?_⟩
  have hspec := outer_fold_spec true 1 1 1 1 1 (List.range 1)
    { heap := reformatInit 1 0 0 (fun _ _ _ _ _ => ((1 : ℚ), 1)),
      sfr := fun _ _ => 0, sfi := fun _ _ => 0 }
    0 0 (List.nodup_range 1) (List.mem_range.mpr (by omega)) (by omega)
  dsimp only at hspec
  rw [reformatInit_ref3] at hspec
  show (reformattingKspaceForSpark 1 1 1 1 1 1 0 0 true (fun _ _ _ _ _ => ((1 : ℚ), 1))).sfr 0 0
    = 1 / (0 : ℚ)
  unfold reformattingKspaceForSpark
  rw [hspec.1, if_pos rfl, hmax]

/-! ## C3 / C8 / C9: SENSE forward / adjoint pair -/

lemma star_ofRealC (r : ℝ) : star ((r : ℝ) : ℂ) = ((r : ℝ) : ℂ) := by
  rw [Complex.star_def, Complex.conj_ofReal]

lemma star_cker (d k m : ℕ) : star (cker d k m) = icker d k m := by
  unfold cker icker
  rw [Complex.star_def, ← Complex.exp_conj]
  congr 1
  simp only [map_neg, map_div₀, map_mul, Complex.conj_I, Complex.conj_ofReal,
    map_intCast, map_natCast, map_ofNat]
  ring

lemma sum_rot3 {α A B D : Type} [AddCommMonoid α] [Fintype A] [Fintype B] [Fintype D]
    (g : A → B → D → α) :
    ∑ a, ∑ b, ∑ d, g a b d = ∑ d, ∑ a, ∑ b, g a b d := by
  calc ∑ a, ∑ b, ∑ d, g a b d = ∑ a, ∑ d, ∑ b, g a b d :=
        Finset.sum_congr rfl fun a _ => Finset.sum_comm
  _ = ∑ d, ∑ a, ∑ b, g a b d := Finset.sum_comm

lemma sum_swap4 {α A B C D : Type} [AddCommMonoid α] [Fintype A] [Fintype B] [Fintype C]
    [Fintype D] (f : A → B → C → D → α) :
    ∑ a, ∑ b, ∑ c, ∑ d, f a b c d = ∑ c, ∑ d, ∑ a, ∑ b, f a b c d := by
  calc ∑ a, ∑ b, ∑ c, ∑ d, f a b c d
      = ∑ a, ∑ c, ∑ b, ∑ d, f a b c d :=
        Finset.sum_congr rfl fun a _ => Finset.sum_comm
  _ = ∑ c, ∑ a, ∑ b, ∑ d, f a b c d := Finset.sum_comm
  _ = ∑ c, ∑ a, ∑ d, ∑ b, f a b c d :=
        Finset.sum_congr rfl fun c _ => Finset.sum_congr rfl fun a _ => Finset.sum_comm
  _ = ∑ c, ∑ d, ∑ a, ∑ b, f a b c d :=
        Finset.sum_congr rfl fun c _ => Finset.sum_comm

lemma icker_symm (d k m : ℕ) : icker d k m = icker d m k := by
  unfold icker
  rw [mul_comm ((k : ℤ) - (d : ℤ) / 2) ((m : ℤ) - (d : ℤ) / 2)]

/-- The centered orthonormal DFT pair is adjoint: `⟨fft2c x, y⟩ = ⟨x, ifft2c y⟩`. -/
lemma innerMN_fft2c {M N : ℕ} (x y : Fin M → Fin N → ℂ) :
    innerMN (fft2c x) y = innerMN x (ifft2c y) := by
  unfold innerMN fft2c ifft2c
  simp only [star_mul', star_sum, star_cker, star_ofRealC, Finset.sum_mul, Finset.mul_sum]
  rw [sum_swap4]
  refine Finset.sum_congr rfl fun m _ => Finset.sum_congr rfl fun n _ =>
    Finset.sum_congr rfl fun k _ => Finset.sum_congr rfl fun l _ => ?_
  rw [icker_symm M (m : ℕ) (k : ℕ), icker_symm N (n : ℕ) (l : ℕ)]
  ring

lemma innerMN_conj {M N : ℕ} (a b : Fin M → Fin N → ℂ) :
    star (innerMN a b) = innerMN b a := by
  unfold innerMN
  simp only [star_sum, star_mul', star_star]
  refine Finset.sum_congr rfl fun k _ => Finset.sum_congr rfl fun l _ => by ring

lemma innerMN_ifft2c {M N : ℕ} (x y : Fin M → Fin N → ℂ) :
    innerMN (ifft2c x) y = innerMN x (fft2c y) := by
  calc innerMN (ifft2c x) y = star (innerMN y (ifft2c x)) := (innerMN_conj y (ifft2c x)).symm
  _ = star (innerMN (fft2c y) x) := by rw [← innerMN_fft2c y x]
  _ = innerMN x (fft2c y) := innerMN_conj (fft2c y) x

/-- `⟨senseAdjoint w, y⟩ = ⟨w, coilFT y⟩`: the adjoint pairs exactly with the
unmasked coil-weight-then-transform map. -/
lemma innerMN_senseAdjoint {C M N : ℕ} (w : Fin C → Fin M → Fin N → ℂ)
    (maps : Fin C → Fin M → Fin N → ℂ) (mask : Fin C → Fin M → Fin N → ℝ)
    (y : Fin M → Fin N → ℂ) :
    innerMN (senseAdjoint w maps mask) y = innerChan w (coilFT maps y) := by
  unfold innerMN senseAdjoint
  calc ∑ m, ∑ n, star (∑ c, star (maps c m n) * ifft2c (w c) m n) * y m n
      = ∑ m, ∑ n, ∑ c, maps c m n * star (ifft2c (w c) m n) * y m n := by
        refine Finset.sum_congr rfl fun m _ => Finset.sum_congr rfl fun n _ => ?_
        rw [star_sum, Finset.sum_mul]
        refine Finset.sum_congr rfl fun c _ => ?_
        rw [star_mul', star_star]
  _ = ∑ c, ∑ m, ∑ n, maps c m n * star (ifft2c (w c) m n) * y m n := sum_rot3 _
  _ = ∑ c, innerMN (ifft2c (w c)) (fun m n => maps c m n * y m n) := by
        refine Finset.sum_congr rfl fun c _ => ?_
        unfold innerMN
        refine Finset.sum_congr rfl fun m _ => Finset.sum_congr rfl fun n _ => by ring
  _ = ∑ c, innerMN (w c) (fft2c (fun m n => maps c m n * y m n)) :=
        Finset.sum_congr rfl fun c _ => innerMN_ifft2c _ _
  _ = innerChan w (coilFT maps y) := rfl

/-- `⟨x, senseAdjoint w⟩ = ⟨coilFT x, w⟩`. -/
lemma innerMN_senseAdjoint' {C M N : ℕ} (x : Fin M → Fin N → ℂ)
    (w : Fin C → Fin M → Fin N → ℂ) (maps : Fin C → Fin M → Fin N → ℂ)
    (mask : Fin C → Fin M → Fin N → ℝ) :
    innerMN x (senseAdjoint w maps mask) = innerChan (coilFT maps x) w := by
  unfold innerMN senseAdjoint
  calc ∑ m, ∑ n, star (x m n) * ∑ c, star (maps c m n) * ifft2c (w c) m n
      = ∑ m, ∑ n, ∑ c, star (maps c m n * x m n) * ifft2c (w c) m n := by
        refine Finset.sum_congr rfl fun m _ => Finset.sum_congr rfl fun n _ => ?_
        rw [Finset.mul_sum]
        refine Finset.sum_congr rfl fun c _ => ?_
        rw [star_mul']
        ring
  _ = ∑ c, ∑ m, ∑ n, star (maps c m n * x m n) * ifft2c (w c) m n := sum_rot3 _
  _ = ∑ c, innerMN (fun m n => maps c m n * x m n) (ifft2c (w c)) := rfl
  _ = ∑ c, innerMN (fft2c (fun m n => maps c m n * x m n)) (w c) :=
        Finset.sum_congr rfl fun c _ => (innerMN_fft2c _ _).symm
  _ = innerChan (coilFT maps x) w := rfl

/-- C3 (amended): the adjoint identity
`⟨senseForward(x), y⟩ = ⟨x, senseAdjoint(y)⟩` holds for every complex image
`x`, coil maps, real mask, and every `y` supported on the mask
(`mask ⊙ y = y`); `senseAdjoint` applies no mask, so the restriction on `y`
is what the unmasked adjoint costs. -/
theorem sense_adjoint_identity_masked {C M N : ℕ} (x : Fin M → Fin N → ℂ)
    (y : Fin C → Fin M → Fin N → ℂ) (maps : Fin C → Fin M → Fin N → ℂ)
    (mask : Fin C → Fin M → Fin N → ℝ)
    (hy : ∀ c k l, ((mask c k l : ℝ) : ℂ) * y c k l = y c k l) :
    innerChan (senseForward x maps mask) y = innerMN x (senseAdjoint y maps mask) := by
  rw [innerMN_senseAdjoint' x y maps mask]
  unfold innerChan innerMN senseForward coilFT
  refine Finset.sum_congr rfl fun c _ => Finset.sum_congr rfl fun k _ =>
    Finset.sum_congr rfl fun l _ => ?_
  rw [star_mul', star_ofRealC]
  calc ((mask c k l : ℝ) : ℂ) * star (fft2c (fun m n => maps c m n * x m n) k l) * y c k l
      = star (fft2c (fun m n => maps c m n * x m n) k l) *
          (((mask c k l : ℝ) : ℂ) * y c k l) := by ring
  _ = star (fft2c (fun m n => maps c m n * x m n) k l) * y c k l := by rw [hy c k l]

lemma fft2c_eval11 (x : Fin 1 → Fin 1 → ℂ) (k l : Fin 1) : fft2c x k l = x 0 0 := by
  have hk : k = 0 := Subsingleton.elim k 0
  have hl : l = 0 := Subsingleton.elim l 0
  subst hk hl
  unfold fft2c cker
  rw [Fin.sum_univ_one, Fin.sum_univ_one]
  norm_num

lemma ifft2c_eval11 (x : Fin 1 → Fin 1 → ℂ) (k l : Fin 1) : ifft2c x k l = x 0 0 := by
  have hk : k = 0 := Subsingleton.elim k 0
  have hl : l = 0 := Subsingleton.elim l 0
  subst hk hl
  unfold ifft2c icker
  rw [Fin.sum_univ_one, Fin.sum_univ_one]
  norm_num

/-- C3 counterexample to the claim as stated: on a 1-channel 1×1 geometry
with all-one image, maps and k-space but an all-zero mask,
`⟨senseForward(x), y⟩ = 0` while `⟨x, senseAdjoint(y)⟩ = 1` — the identity
fails for `y` not restricted to the support of the mask, because
`senseAdjoint` never applies the mask. -/
theorem sense_adjoint_identity_cex :
    innerChan (senseForward (fun (_ : Fin 1) (_ : Fin 1) => (1 : ℂ))
        (fun (_ : Fin 1) _ _ => (1 : ℂ)) (fun _ _ _ => (0 : ℝ)))
        (fun _ _ _ => (1 : ℂ))
      ≠ innerMN (fun (_ : Fin 1) (_ : Fin 1) => (1 : ℂ))
        (senseAdjoint (fun (_ : Fin 1) (_ : Fin 1) (_ : Fin 1) => (1 : ℂ))
          (fun _ _ _ => (1 : ℂ)) (fun _ _ _ => (0 : ℝ))) := by
  intro h
  have hL : innerChan (senseForward (fun (_ : Fin 1) (_ : Fin 1) => (1 : ℂ))
      (fun (_ : Fin 1) _ _ => (1 : ℂ)) (fun _ _ _ => (0 : ℝ)))
      (fun _ _ _ => (1 : ℂ)) = 0 := by
    unfold innerChan innerMN senseForward
    rw [Fin.sum_univ_one, Fin.sum_univ_one, Fin.sum_univ_one]
    norm_num
  have hR : innerMN (fun (_ : Fin 1) (_ : Fin 1) => (1 : ℂ))
      (senseAdjoint (fun (_ : Fin 1) (_ : Fin 1) (_ : Fin 1) => (1 : ℂ))
        (fun _ _ _ => (1 : ℂ)) (fun _ _ _ => (0 : ℝ))) = 1 := by
    unfold innerMN senseAdjoint
    rw [Fin.sum_univ_one, Fin.sum_univ_one, Fin.sum_univ_one, ifft2c_eval11]
    norm_num
  rw [hL, hR] at h
  exact zero_ne_one h

/-- C3 witness: 1-channel 1×1 geometry with the all-one mask, on which the
support hypothesis holds trivially. -/
theorem sense_adjoint_identity_masked_witness :
    (∀ c k l : Fin 1,
      (((fun (_ : Fin 1) (_ : Fin 1) (_ : Fin 1) => (1 : ℝ)) c k l : ℝ) : ℂ) *
        (fun (_ : Fin 1) (_ : Fin 1) (_ : Fin 1) => (1 : ℂ)) c k l
        = (fun (_ : Fin 1) (_ : Fin 1) (_ : Fin 1) => (1 : ℂ)) c k l) ∧
    innerChan (senseForward (fun (_ : Fin 1) (_ : Fin 1) => (1 : ℂ))
        (fun (_ : Fin 1) _ _ => (1 : ℂ)) (fun _ _ _ => (1 : ℝ)))
        (fun _ _ _ => (1 : ℂ))
      = innerMN (fun (_ : Fin 1) (_ : Fin 1) => (1 : ℂ))
        (senseAdjoint (fun (_ : Fin 1) (_ : Fin 1) (_ : Fin 1) => (1 : ℂ))
          (fun _ _ _ => (1 : ℂ)) (fun _ _ _ => (1 : ℝ))) := by
  have hy : ∀ c k l : Fin 1,
      (((fun (_ : Fin 1) (_ : Fin 1) (_ : Fin 1) => (1 : ℝ)) c k l : ℝ) : ℂ) *
        (fun (_ : Fin 1) (_ : Fin 1) (_ : Fin 1) => (1 : ℂ)) c k l
        = (fun (_ : Fin 1) (_ : Fin 1) (_ : Fin 1) => (1 : ℂ)) c k l := by
    intro c k l
    norm_num
  exact ⟨hy, sense_adjoint_identity_masked _ _ _ _ hy⟩

/-- C8: `senseAdjoint` never reads its `mask` argument, so its output is
identical for any two masks. -/
theorem senseAdjoint_ignores_mask {C M N : ℕ} (x : Fin C → Fin M → Fin N → ℂ)
    (maps : Fin C → Fin M → Fin N → ℂ) (m1 m2 : Fin C → Fin M → Fin N → ℝ) :
    senseAdjoint x maps m1 = senseAdjoint x maps m2 := rfl

/-- C9: for a `{0,1}`-valued mask, the cartesian normal operator
`x ↦ senseAdjoint(senseForward(x))` is self-adjoint:
`⟨normal(x), y⟩ = ⟨x, normal(y)⟩` for all images `x`, `y`. -/
theorem normalOp_selfAdjoint {C M N : ℕ} (maps : Fin C → Fin M → Fin N → ℂ)
    (mask : Fin C → Fin M → Fin N → ℝ) (x y : Fin M → Fin N → ℂ)
    (hmask : ∀ c k l, mask c k l = 0 ∨ mask c k l = 1) :
    innerMN (normalOp maps mask x) y = innerMN x (normalOp maps mask y) := by
  unfold normalOp
  rw [innerMN_senseAdjoint (senseForward x maps mask) maps mask y,
    innerMN_senseAdjoint' x (senseForward y maps mask) maps mask]
  unfold innerChan innerMN senseForward coilFT
  refine Finset.sum_congr rfl fun c _ => Finset.sum_congr rfl fun k _ =>
    Finset.sum_congr rfl fun l _ => ?_
  rw [star_mul', star_ofRealC]
  ring

/-- C9 witness: 1-channel 1×1 geometry with the all-one (hence `{0,1}`)
mask. -/
theorem normalOp_selfAdjoint_witness :
    (∀ c k l : Fin 1, (fun (_ : Fin 1) (_ : Fin 1) (_ : Fin 1) => (1 : ℝ)) c k l = 0 ∨
      (fun (_ : Fin 1) (_ : Fin 1) (_ : Fin 1) => (1 : ℝ)) c k l = 1) ∧
    innerMN (normalOp (fun (_ : Fin 1) (_ : Fin 1) (_ : Fin 1) => (1 : ℂ))
        (fun _ _ _ => (1 : ℝ)) (fun _ _ => (1 : ℂ))) (fun _ _ => (2 : ℂ))
      = innerMN (fun _ _ => (1 : ℂ))
        (normalOp (fun (_ : Fin 1) (_ : Fin 1) (_ : Fin 1) => (1 : ℂ))
          (fun _ _ _ => (1 : ℝ)) (fun _ _ => (2 : ℂ))) := by
  have hmask : ∀ c k l : Fin 1,
      (fun (_ : Fin 1) (_ : Fin 1) (_ : Fin 1) => (1 : ℝ)) c k l = 0 ∨
      (fun (_ : Fin 1) (_ : Fin 1) (_ : Fin 1) => (1 : ℝ)) c k l = 1 :=
    fun _ _ _ => Or.inr rfl
  exact ⟨hmask, normalOp_selfAdjoint _ _ _ _ hmask⟩
